import Mathlib

/-!
Verification development for the Kokoro text-to-audio converter repository.

The repository holds two Tk applications:
* `kokoro_converter.py` — a PDF→MP3 batch converter (`PDFConverterApp`) with a
  work queue, a background queue runner (`process_queue`), pause/stop flags and
  a JSON settings store (`load_settings` / `save_settings`);
* `kokoro_tts_app.py` — a text→speech app (`KokoroTTSApp`) with its own JSON
  settings store and an ffmpeg-dependent mp3/wav output-format choice.

This file gives a shallow embedding of the queue data model, the queue runner
loop, the control flags and both settings stores, and proves the spec's
testable properties about them.  External collaborators (PDF extraction, TTS
inference, ffmpeg) are modelled as oracle outcomes; the filesystem is a list of
paths.
-/

namespace KokoroSpec

/-- Job status strings used in `kokoro_converter.py` (`"Pending"`, `"Processing"`,
`"Complete"`, `"Error"`). -/
inductive Status
  | Pending
  | Processing
  | Complete
  | Error
deriving DecidableEq, Repr

/-- One entry of `self.pdf_queue`: the dict
`{"status": ..., "path": file_path, "filename": file}`. -/
structure Job where
  status : Status
  path : String
  filename : String
deriving DecidableEq, Repr

/-! ### Path helpers (`os.path` on POSIX paths)

`process_queue` derives output names with `os.path.dirname`, `os.path.basename`,
`os.path.splitext` and `os.path.join`; we embed those string functions here. -/

/-- Index one past the last `'/'` in the list, `0` when there is no slash
(Python `p.rfind('/') + 1`). -/
def rfindSlashSucc : List Char → Nat
  | [] => 0
  | c :: rest =>
    let r := rfindSlashSucc rest
    if 0 < r then r + 1 else if c = '/' then 1 else 0

/-- Index one past the last `'.'` in the list, `0` when there is no dot. -/
def rfindDotSucc : List Char → Nat
  | [] => 0
  | c :: rest =>
    let r := rfindDotSucc rest
    if 0 < r then r + 1 else if c = '.' then 1 else 0

/-- `os.path.dirname` for POSIX paths: the part before the last slash; the head
keeps its trailing slashes only when it consists of slashes alone. -/
def dirname (s : String) : String :=
  let cs := s.toList
  let head := cs.take (rfindSlashSucc cs)
  if head ≠ [] ∧ head.any (fun c => c ≠ '/') then
    String.mk ((head.reverse.dropWhile (fun c => c = '/')).reverse)
  else
    String.mk head

/-- `os.path.basename` for POSIX paths: the part after the last slash. -/
def basename (s : String) : String :=
  let cs := s.toList
  String.mk (cs.drop (rfindSlashSucc cs))

/-- The root part of `os.path.splitext` for a slash-free filename: everything
before the last dot, unless all characters before that dot are dots. -/
def splitextRoot (s : String) : String :=
  let cs := s.toList
  let d := rfindDotSucc cs
  if d = 0 then s
  else if (cs.take (d - 1)).any (fun c => c ≠ '.') then String.mk (cs.take (d - 1))
  else s

/-- The `safe_folder_name` computation of `process_queue`: keep alphanumerics,
spaces and underscores, then strip trailing whitespace (after the filter the
only whitespace left is the space character). -/
def safeFolderName (s : String) : String :=
  let kept := s.toList.filter (fun c => c.isAlphanum ∨ c = ' ' ∨ c = '_')
  String.mk ((kept.reverse.dropWhile (fun c => c = ' ')).reverse)

/-- Whether a path string begins with a slash. -/
def headIsSlash (s : String) : Bool :=
  match s.toList with
  | '/' :: _ => true
  | _ => false

/-- Whether a path string ends with a slash. -/
def lastIsSlash (s : String) : Bool :=
  match s.toList.getLast? with
  | some '/' => true
  | _ => false

/-- `os.path.join` for POSIX paths as used with a directory and a relative name. -/
def joinPath (a b : String) : String :=
  if headIsSlash b then b
  else if a = "" ∨ lastIsSlash a then a ++ b
  else a ++ "/" ++ b

/-- `base_filename = f"{safe_folder_name}_{os.path.splitext(item['filename'])[0]}"`. -/
def baseFilename (item : Job) : String :=
  safeFolderName (basename (dirname item.path)) ++ "_" ++ splitextRoot item.filename

/-- `temp_output_path = os.path.join(self.destination_folder, f"{base_filename}_temp.mp3")`. -/
def tempPath (dest : String) (item : Job) : String :=
  joinPath dest (baseFilename item ++ "_temp.mp3")

/-- `final_output_path = os.path.join(self.destination_folder, f"{base_filename}.mp3")`. -/
def finalPath (dest : String) (item : Job) : String :=
  joinPath dest (baseFilename item ++ ".mp3")

/-! ### Filesystem model: the set of existing paths, as a list. -/

/-- `os.remove` / the removal half of `os.rename`: the path no longer exists. -/
def removePath (p : String) (fs : List String) : List String :=
  fs.filter (fun q => q ≠ p)

/-- Creating or overwriting the file at `p`. -/
def insertPath (p : String) (fs : List String) : List String :=
  if p ∈ fs then fs else p :: fs

/-! ### Queue-runner events and oracle outcomes -/

/-- Observable actions of one `process_queue` iteration on a job index:
status writes, the external steps that completed, and which output branch ran. -/
inductive Ev
  | statusSet (i : Nat) (s : Status)
  | extracted (i : Nat)
  | synthesized (i : Nat)
  | encoded (i : Nat)
  | renamed (i : Nat)
deriving DecidableEq, Repr

/-- The job index an event belongs to. -/
def Ev.idx : Ev → Nat
  | .statusSet i _ => i
  | .extracted i => i
  | .synthesized i => i
  | .encoded i => i
  | .renamed i => i

/-- Oracle describing what the external world does for one job: whether
`fitz` text extraction, `tts_engine.tts` and the ffmpeg subprocess succeed,
whether a failed synthesis left a partial temp file, and whether a failed
encode left a partial final file. -/
structure JobOutcome where
  extractOk : Bool
  synthOk : Bool
  synthTempWritten : Bool
  encodeOk : Bool
  encodeFinalLeft : Bool
deriving DecidableEq, Repr

/-- Whether processing a (non-skipped) job with this outcome raises, given the
`optimize_mp3` flag and ffmpeg availability: extraction failure, synthesis
failure, or — only on the encode branch — encoder failure. -/
def JobOutcome.raises (optimize ffmpeg : Bool) (oc : JobOutcome) : Bool :=
  !oc.extractOk || !oc.synthOk || (optimize && ffmpeg && !oc.encodeOk)

/-- The run-wide configuration read by `process_queue`: the `optimize_mp3`
checkbox, `shutil.which("ffmpeg")` availability and `self.destination_folder`. -/
structure RunCfg where
  optimize : Bool
  ffmpeg : Bool
  dest : String

/-- State threaded through the queue-runner loop: the queue, the filesystem,
the `temp_output_path` local left over from earlier iterations (consulted by
the `except` handler via `'temp_output_path' in locals()`), and the event
trace. -/
structure RunSt where
  queue : List Job
  fs : List String
  lastTemp : Option String
  trace : List Ev
deriving DecidableEq, Repr

/-- One iteration body of the `for i in range(len(queue)-1, -1, -1)` loop of
`PDFConverterApp.process_queue`, after the running/pause checks: skip a
`Complete` job; otherwise mark it `Processing`, run extraction, synthesis and
the encode-or-rename output step, mark `Complete`, and on any exception mark
`Error` and delete the temp file if it exists. -/
def stepJob (cfg : RunCfg) (oc : JobOutcome) (i : Nat) (st : RunSt) : RunSt :=
  match st.queue[i]? with
  | none => st
  | some item =>
    if item.status = Status.Complete then st
    else
      let q1 := st.queue.set i { item with status := Status.Processing }
      let t1 := st.trace ++ [Ev.statusSet i Status.Processing]
      if oc.extractOk = false then
        -- `fitz.open`/`get_text` raised before `temp_output_path` was assigned:
        -- the handler's `os.remove` can only see a stale path from an earlier
        -- iteration.
        { queue := q1.set i { item with status := Status.Error }
          fs := match st.lastTemp with
                | none => st.fs
                | some t => removePath t st.fs
          lastTemp := st.lastTemp
          trace := t1 ++ [Ev.statusSet i Status.Error] }
      else
        let temp := tempPath cfg.dest item
        let fin := finalPath cfg.dest item
        let t2 := t1 ++ [Ev.extracted i]
        if oc.synthOk = false then
          { queue := q1.set i { item with status := Status.Error }
            fs := removePath temp
              (if oc.synthTempWritten then insertPath temp st.fs else st.fs)
            lastTemp := some temp
            trace := t2 ++ [Ev.statusSet i Status.Error] }
        else
          let fs1 := insertPath temp st.fs
          let t3 := t2 ++ [Ev.synthesized i]
          if cfg.optimize && cfg.ffmpeg then
            if oc.encodeOk then
              { queue := q1.set i { item with status := Status.Complete }
                fs := removePath temp (insertPath fin fs1)
                lastTemp := some temp
                trace := t3 ++ [Ev.encoded i, Ev.statusSet i Status.Complete] }
            else
              { queue := q1.set i { item with status := Status.Error }
                fs := removePath temp
                  (if oc.encodeFinalLeft then insertPath fin fs1 else fs1)
                lastTemp := some temp
                trace := t3 ++ [Ev.statusSet i Status.Error] }
          else
            { queue := q1.set i { item with status := Status.Complete }
              fs := insertPath fin (removePath temp fs1)
              lastTemp := some temp
              trace := t3 ++ [Ev.renamed i, Ev.statusSet i Status.Complete] }

/-- Oracle for the shared control flags as observed by the worker thread:
`runningAtTop i` is the value of `self.is_running` read by the
`if not self.is_running: break` check of iteration `i`; `stopDuringPause i`
records whether a Stop arrived while the worker sat in iteration `i`'s
`while self.is_paused` wait (the inner `break` leaves only the `while`, so the
iteration still processes its job either way); `outcome i` is the external
outcome for the job at index `i`. -/
structure RunEnv where
  runningAtTop : Nat → Bool
  stopDuringPause : Nat → Bool
  outcome : Nat → JobOutcome

/-- `self.is_running` only moves from `true` to `false` during a run (only
`stop_conversion` clears it, and `start_conversion` refuses to restart while
running): once Stop is observed at iteration `i`, every later iteration — a
smaller index, since the loop descends — reads `false`. -/
def RunEnv.StopMonotone (env : RunEnv) : Prop :=
  ∀ i j : Nat, j < i →
    (env.runningAtTop i = false ∨ env.stopDuringPause i = true) →
    env.runningAtTop j = false

/-- The loop of `process_queue` over a list of remaining indices. -/
def runFrom (cfg : RunCfg) (env : RunEnv) : List Nat → RunSt → RunSt
  | [], st => st
  | i :: rest, st =>
    if env.runningAtTop i = false then st
    else runFrom cfg env rest (stepJob cfg (env.outcome i) i st)

/-- `range(len(queue) - 1, -1, -1)`. -/
def revRange (n : Nat) : List Nat := (List.range n).reverse

/-- `PDFConverterApp.process_queue` on a starting queue and filesystem. -/
def processQueue (cfg : RunCfg) (env : RunEnv) (q : List Job) (fs0 : List String) : RunSt :=
  runFrom cfg env (revRange q.length) { queue := q, fs := fs0, lastTemp := none, trace := [] }

/-- An environment in which the run is never stopped or paused. -/
def alwaysRun (oc : Nat → JobOutcome) : RunEnv :=
  { runningAtTop := fun _ => true, stopDuringPause := fun _ => false, outcome := oc }

/-! ### Control flags (`is_running` / `is_paused`) -/

/-- The two shared flags of `PDFConverterApp`; `Idle` is
`is_running = false`. -/
structure Ctrl where
  is_running : Bool
  is_paused : Bool
deriving DecidableEq, Repr

/-- `PDFConverterApp.stop_conversion`: returns unchanged when not running,
otherwise clears both flags. -/
def stop_conversion (c : Ctrl) : Ctrl :=
  if c.is_running = false then c else { is_running := false, is_paused := false }

/-! ### Derived run observations -/

/-- The status a queue entry has after the runner has visited its index once:
`Complete` entries are skipped; everything else ends `Error` when its
processing raised and `Complete` otherwise. -/
def runStatus (cfg : RunCfg) (oc : JobOutcome) (item : Job) : Job :=
  if item.status = Status.Complete then item
  else { item with status := if oc.raises cfg.optimize cfg.ffmpeg then Status.Error
                             else Status.Complete }

/-- The index of a `statusSet _ Processing` event, the runner's "job attempted"
mark. -/
def attemptIdx : Ev → Option Nat
  | .statusSet i Status.Processing => some i
  | _ => none

/-- The sequence of job indices a trace marked `Processing`, in order. -/
def attempts (tr : List Ev) : List Nat := tr.filterMap attemptIdx

/-- Whether the queue holds, at index `i`, a job whose status is not
`Complete`. -/
def notCompleteAt (q : List Job) (i : Nat) : Bool :=
  match q[i]? with
  | some item => decide (item.status ≠ Status.Complete)
  | none => false

/-- A sequence of conversion runs: each run starts from the queue and
filesystem the previous one left (the queue is persisted between runs);
the traces are concatenated. -/
def runMany (cfg : RunCfg) : List RunEnv → List Job → List String →
    List Job × List String × List Ev
  | [], q, fs => (q, fs, [])
  | env :: rest, q, fs =>
    let st := processQueue cfg env q fs
    let r := runMany cfg rest st.queue st.fs
    (r.1, r.2.1, st.trace ++ r.2.2)

/-! ### Work-queue operations (`find_pdfs`, `move_item`) -/

/-- The per-file enqueue step of `PDFConverterApp.find_pdfs`: a file whose
path is already in the queue is ignored, otherwise a `Pending` job is
appended. -/
def queue_add (q : List Job) (j : Job) : List Job :=
  if q.any (fun item => item.path = j.path) then q else q ++ [j]

/-- `PDFConverterApp.move_item`: with a selected index and a direction, compute
`new_index = index + direction`; when `0 <= new_index < len(queue)` pop the
item at `index` and re-insert it at `new_index`, otherwise do nothing.  The
selected index always comes from the tree view mirroring the queue, so it is
in range; out-of-range indices are mapped to a no-op here. -/
def move_item (q : List Job) (index : Nat) (direction : Int) : List Job :=
  let new_index : Int := (index : Int) + direction
  if 0 ≤ new_index ∧ new_index < (q.length : Int) then
    match q[index]? with
    | some item => (q.eraseIdx index).insertIdx new_index.toNat item
    | none => q
  else q

/-! ### Settings store of `kokoro_converter.py` (`PDFConverterApp`) -/

/-- The state of the settings file as the loader sees it: absent, present but
not JSON (`json.load` raises `JSONDecodeError`), present and parsing to a
non-object value, or a parsed object with an optional value per known key
(unknown keys are ignored, `settings.get` defaults missing ones). -/
inductive FileState (α : Type)
  | missing
  | notJson
  | nonObject
  | obj (f : α)
deriving DecidableEq, Repr

/-- The fields `PDFConverterApp.save_settings` writes. -/
structure App1Settings where
  pdf_queue : List Job
  destination_folder : String
  selected_voice : String
  speaker_wav_path : String
  selected_tts_model : String
  optimize_mp3 : Bool
deriving DecidableEq, Repr

/-- The persisted form of the first app's settings: each key may be absent. -/
structure App1File where
  pdf_queue : Option (List Job)
  destination_folder : Option String
  selected_voice : Option String
  speaker_wav_path : Option String
  selected_tts_model : Option String
  optimize_mp3 : Option Bool
deriving DecidableEq, Repr

/-- `list(self.available_tts_models.keys())[0]`, the default model key. -/
def app1FirstModelKey : String := "VCTK (Multi-Voice)"

/-- `PDFConverterApp.__init__` field defaults, with `Path.home()/"Downloads"`
passed in as `downloads`: empty queue, empty `StringVar`s, `optimize_mp3`
initially `True`. -/
def app1Defaults (downloads : String) : App1Settings :=
  { pdf_queue := []
    destination_folder := downloads
    selected_voice := ""
    speaker_wav_path := ""
    selected_tts_model := ""
    optimize_mp3 := true }

/-- `PDFConverterApp.load_settings` applied to the current field values:
a missing file leaves everything untouched; `json.JSONDecodeError` is caught
and clears the queue; a file parsing to a non-object raises `AttributeError`
at `settings.get`, which nothing catches; a parsed object fills each field via
`settings.get(key, default)`. -/
def app1_load_settings (st : App1Settings) (file : FileState App1File) :
    Except String App1Settings :=
  match file with
  | .missing => .ok st
  | .notJson => .ok { st with pdf_queue := [] }
  | .nonObject => .error "AttributeError: no attribute get"
  | .obj f => .ok
      { pdf_queue := f.pdf_queue.getD []
        destination_folder := f.destination_folder.getD st.destination_folder
        selected_voice := f.selected_voice.getD ""
        speaker_wav_path := f.speaker_wav_path.getD ""
        selected_tts_model := f.selected_tts_model.getD app1FirstModelKey
        optimize_mp3 := f.optimize_mp3.getD true }

/-- `PDFConverterApp.save_settings`: every field is written. -/
def app1_save_settings (st : App1Settings) : App1File :=
  { pdf_queue := some st.pdf_queue
    destination_folder := some st.destination_folder
    selected_voice := some st.selected_voice
    speaker_wav_path := some st.speaker_wav_path
    selected_tts_model := some st.selected_tts_model
    optimize_mp3 := some st.optimize_mp3 }

/-! ### Settings store and output-format logic of `kokoro_tts_app.py` -/

/-- `KOKORO_VOICES` from `kokoro_tts_app.py`. -/
def KOKORO_VOICES : List String :=
  ["af_bella", "af_sarah", "af_sky", "af_heart", "af_nicole",
   "af_alloy", "af_aoede", "af_river", "af_nova", "af_jessica", "af_kore",
   "am_adam", "am_michael", "am_eric", "am_onyx", "am_liam",
   "am_echo", "am_fenrir", "am_puck", "am_santa"]

/-- `LOG_LEVELS` from `kokoro_tts_app.py`. -/
def LOG_LEVELS : List String :=
  ["ALL", "DEBUG", "INFO", "WARNING", "ERROR", "CRITICAL"]

/-- Python `str.strip()`: drop leading and trailing whitespace. -/
def pyStrip (s : String) : String :=
  String.mk (((s.toList.dropWhile Char.isWhitespace).reverse.dropWhile
    Char.isWhitespace).reverse)

/-- The fields of `KokoroTTSApp` that `save_settings` persists.  `speed` is a
Tk `DoubleVar`; it is compared and stored but never computed with, so it is
modelled as a rational. -/
structure App2Settings where
  voice : String
  speed : ℚ
  output_format : String
  output_path : String
  text_input : String
  console_visible : Bool
  log_level_filter : String
deriving DecidableEq, Repr

/-- The persisted form of the second app's settings. -/
structure App2File where
  voice : Option String
  speed : Option ℚ
  output_format : Option String
  output_path : Option String
  text_input : Option String
  console_visible : Option Bool
  log_level_filter : Option String
deriving DecidableEq, Repr

/-- `KokoroTTSApp` field defaults from `__init__`/`setup_ui`, with
`Path.home()/"Downloads"` passed in as `downloads`. -/
def app2Defaults (downloads : String) : App2Settings :=
  { voice := "af_bella"
    speed := 1
    output_format := "wav"
    output_path := downloads
    text_input := ""
    console_visible := false
    log_level_filter := "INFO" }

/-- `KokoroTTSApp.load_settings`, returning the new field values and whether a
warning was logged.  `pathOk p` models `Path(p).exists() or
Path(p).parent.exists()` and `pathStr p` models `str(Path(p))` — both external
`pathlib` behaviour.  A missing file returns early; an unparseable or
otherwise-raising file is caught by the surrounding `except Exception` with a
warning (the `nonObject` case models a scalar file, where `'voice' in settings`
raises `TypeError`); a parsed object applies each field only when present and
valid, rewriting a persisted `"mp3"` to `"wav"` when ffmpeg is unavailable. -/
def app2_load_settings (hasFfmpeg : Bool) (pathOk : String → Bool)
    (pathStr : String → String) (st : App2Settings) (file : FileState App2File) :
    App2Settings × Bool :=
  match file with
  | .missing => (st, false)
  | .notJson => (st, true)
  | .nonObject => (st, true)
  | .obj f =>
    ({ voice := match f.voice with
        | some v => if v ∈ KOKORO_VOICES then v else st.voice
        | none => st.voice
       speed := match f.speed with
        | some v => if 1/2 ≤ v ∧ v ≤ 2 then v else st.speed
        | none => st.speed
       output_format := match f.output_format with
        | some fo =>
          if fo = "wav" ∨ fo = "mp3" then
            if fo = "mp3" ∧ hasFfmpeg = false then "wav" else fo
          else st.output_format
        | none => st.output_format
       output_path := match f.output_path with
        | some p => if pathOk p then pathStr p else st.output_path
        | none => st.output_path
       text_input := f.text_input.getD st.text_input
       console_visible := f.console_visible.getD st.console_visible
       log_level_filter := match f.log_level_filter with
        | some lv => if lv ∈ LOG_LEVELS then lv else st.log_level_filter
        | none => st.log_level_filter }, false)

/-- `KokoroTTSApp.save_settings`: every field is written; the text is read from
the widget with `.get(1.0, tk.END).strip()`, so it is stripped on the way
out. -/
def app2_save_settings (st : App2Settings) : App2File :=
  { voice := some st.voice
    speed := some st.speed
    output_format := some st.output_format
    output_path := some st.output_path
    text_input := some (pyStrip st.text_input)
    console_visible := some st.console_visible
    log_level_filter := some st.log_level_filter }

/-- Validity of a second-app settings value: every field is one the running
application can hold — the voice and log filter come from their fixed lists,
the speed slider covers `[0.5, 2.0]`, the format is one of the two radio
values and `mp3` is only reachable with ffmpeg present, the output path passes
the loader's existence check and is `pathlib`-normal, and the text is stripped
(the widget text is persisted stripped). -/
def ValidApp2 (hasFfmpeg : Bool) (pathOk : String → Bool)
    (pathStr : String → String) (s : App2Settings) : Prop :=
  s.voice ∈ KOKORO_VOICES ∧
  1/2 ≤ s.speed ∧ s.speed ≤ 2 ∧
  (s.output_format = "wav" ∨ s.output_format = "mp3") ∧
  (s.output_format = "mp3" → hasFfmpeg = true) ∧
  pathOk s.output_path = true ∧
  pathStr s.output_path = s.output_path ∧
  pyStrip s.text_input = s.text_input ∧
  s.log_level_filter ∈ LOG_LEVELS

/-! ### Second-app output-format state machine (for the mp3/ffmpeg invariant) -/

/-- User-visible operations that can touch the persisted fields of
`KokoroTTSApp` after startup.  Selecting the MP3 radio button is only possible
when it is enabled, i.e. when ffmpeg is present (`mp3_radio.config(state=
"disabled")` otherwise). -/
inductive App2Op
  | selectFormat (f : String)
  | loadSettings (file : FileState App2File)
  | selectVoice (v : String)
  | setSpeed (v : ℚ)
  | setText (t : String)
  | setPath (p : String)

/-- One UI/settings operation of the second app. -/
def app2_step (hasFfmpeg : Bool) (pathOk : String → Bool)
    (pathStr : String → String) (st : App2Settings) : App2Op → App2Settings
  | .selectFormat f =>
    if (f = "wav" ∨ f = "mp3") ∧ ¬(f = "mp3" ∧ hasFfmpeg = false) then
      { st with output_format := f }
    else st
  | .loadSettings file => (app2_load_settings hasFfmpeg pathOk pathStr st file).1
  | .selectVoice v => if v ∈ KOKORO_VOICES then { st with voice := v } else st
  | .setSpeed v => { st with speed := v }
  | .setText t => { st with text_input := t }
  | .setPath p => { st with output_path := p }

/-- `KokoroTTSApp.__init__`: fields start at their defaults, `load_settings`
runs, and then `if not self.has_ffmpeg: self.output_format.set("wav")`. -/
def app2_init (hasFfmpeg : Bool) (pathOk : String → Bool)
    (pathStr : String → String) (downloads : String) (file : FileState App2File) :
    App2Settings :=
  let s1 := (app2_load_settings hasFfmpeg pathOk pathStr (app2Defaults downloads) file).1
  if hasFfmpeg = false then { s1 with output_format := "wav" } else s1

/-- The branch condition of `generate_speech` that selects the ffmpeg encode:
`output_format == "mp3" and self.has_ffmpeg`. -/
def mp3EncodeAttempted (hasFfmpeg : Bool) (st : App2Settings) : Bool :=
  decide (st.output_format = "mp3") && hasFfmpeg

/-- The queue `q` arose from `q0` by status changes only: every entry of `q`
has the path and filename of some entry of `q0`. -/
def PathSub (q0 q : List Job) : Prop :=
  ∀ k ∈ q, ∃ k0 ∈ q0, k.path = k0.path ∧ k.filename = k0.filename

/-- The stale `temp_output_path` local, when set, is the temp path of some job
of the original queue. -/
def LastTempInv (dest : String) (q0 : List Job) (st : RunSt) : Prop :=
  ∀ t, st.lastTemp = some t → ∃ k0 ∈ q0, t = tempPath dest k0

/-! ### Formal statements of the two claims the code falsifies -/

/-- Claim C2 as stated: whenever Stop is observed at an iteration — at the
job-boundary check, or during the pause wait (where no job is in flight) — no
event of the run concerns that iteration's index or any later (smaller)
index. -/
def ClaimC2 : Prop :=
  ∀ (cfg : RunCfg) (env : RunEnv) (q : List Job) (fs0 : List String) (i : Nat),
    env.StopMonotone → i < q.length →
    ((env.runningAtTop i = false →
       ∀ e ∈ (processQueue cfg env q fs0).trace, i < e.idx) ∧
     (env.stopDuringPause i = true → env.runningAtTop i = true →
       ∀ e ∈ (processQueue cfg env q fs0).trace, i < e.idx))

/-- Claim C8 as stated, for the first application: whatever the state of the
settings file — missing, unparseable, or parseable but malformed — loading
never raises. -/
def ClaimC8 : Prop :=
  ∀ (st : App1Settings) (file : FileState App1File),
    (file = .missing ∨ file = .notJson ∨ file = .nonObject) →
    ∃ r, app1_load_settings st file = .ok r

/-! ### Concrete fixtures for witness runs -/

/-- A concrete pending PDF job. -/
def demoJobA : Job := ⟨Status.Pending, "/docs/a.pdf", "a.pdf"⟩

/-- A second concrete pending PDF job with a different path. -/
def demoJobB : Job := ⟨Status.Pending, "/docs/b.pdf", "b.pdf"⟩

/-- A job that is already `Complete` before the run. -/
def demoJobDone : Job := ⟨Status.Complete, "/docs/c.pdf", "c.pdf"⟩

/-- A duplicate of `demoJobA`'s path with a different filename field. -/
def demoJobA2 : Job := ⟨Status.Pending, "/docs/a.pdf", "a2.pdf"⟩

/-- A run configuration: optimization requested but ffmpeg absent. -/
def demoCfg : RunCfg := ⟨true, false, "/out"⟩

/-- An external outcome where every step succeeds. -/
def demoOutcomeOk : JobOutcome := ⟨true, true, false, true, false⟩

/-- An external outcome where synthesis raises after writing a partial temp
file. -/
def demoOutcomeSynthFail : JobOutcome := ⟨true, false, true, true, false⟩

/-! ## Helper lemmas -/

theorem mem_removePath {x p : String} {fs : List String} :
    x ∈ removePath p fs ↔ x ∈ fs ∧ x ≠ p := by
  simp [removePath]

theorem mem_insertPath {x p : String} {fs : List String} :
    x ∈ insertPath p fs ↔ x = p ∨ x ∈ fs := by
  unfold insertPath
  split
  · constructor
    · exact .inr
    · rintro (rfl | hx) <;> assumption
  · simp [List.mem_cons]

theorem tempPath_congr {d : String} {a b : Job}
    (hp : a.path = b.path) (hf : a.filename = b.filename) :
    tempPath d a = tempPath d b := by
  simp [tempPath, baseFilename, hp, hf]

theorem finalPath_congr {d : String} {a b : Job}
    (hp : a.path = b.path) (hf : a.filename = b.filename) :
    finalPath d a = finalPath d b := by
  simp [finalPath, baseFilename, hp, hf]

theorem attempts_append (a b : List Ev) :
    attempts (a ++ b) = attempts a ++ attempts b := by
  simp [attempts]

theorem revRange_succ (n : Nat) : revRange (n + 1) = n :: revRange n := by
  simp [revRange, List.range_succ]

theorem mem_revRange {n j : Nat} : j ∈ revRange n ↔ j < n := by
  simp [revRange]

theorem revRange_nodup (n : Nat) : (revRange n).Nodup := by
  simp [revRange, List.nodup_range]

theorem revRange_split {n i : Nat} (h : i < n) :
    ∃ A, revRange n = A ++ i :: revRange i ∧ ∀ j ∈ A, i < j := by
  induction n with
  | zero => omega
  | succ m ih =>
    rcases Nat.lt_succ_iff_lt_or_eq.mp h with h' | rfl
    · obtain ⟨A, hA, hb⟩ := ih h'
      refine ⟨m :: A, ?_, ?_⟩
      · rw [revRange_succ, hA]; rfl
      · intro j hj
        rcases List.mem_cons.mp hj with rfl | hj
        · omega
        · exact hb j hj
    · exact ⟨[], by rw [revRange_succ]; rfl, by simp⟩

theorem stepJob_queue_getElem?_ne (cfg : RunCfg) (oc : JobOutcome) (i : Nat) (st : RunSt)
    {j : Nat} (h : j ≠ i) :
    (stepJob cfg oc i st).queue[j]? = st.queue[j]? := by
  simp only [stepJob]
  split
  · rfl
  · split
    · rfl
    · split <;> [skip; split <;> [skip; split <;> [split; skip]]] <;>
        simp [List.getElem?_set_ne (Ne.symm h)]

theorem stepJob_queue_getElem?_self (cfg : RunCfg) (oc : JobOutcome) (i : Nat) (st : RunSt) :
    (stepJob cfg oc i st).queue[i]? = (st.queue[i]?).map (runStatus cfg oc) := by
  simp only [stepJob]
  split
  · next hq => simp [hq]
  · next item hq =>
    have hlen : i < st.queue.length := (List.getElem?_eq_some.mp hq).1
    split
    · next hc => simp [hq, runStatus, hc]
    · next hc =>
      split
      · next he =>
        simp [List.set_set, List.getElem?_set_self hlen, hq, runStatus, hc,
          JobOutcome.raises, he]
      · next he =>
        rw [Bool.not_eq_false] at he
        split
        · next hs =>
          simp [List.set_set, List.getElem?_set_self hlen, hq, runStatus, hc,
            JobOutcome.raises, he, hs]
        · next hs =>
          rw [Bool.not_eq_false] at hs
          split
          · next hof =>
            split
            · next hk =>
              simp [List.set_set, List.getElem?_set_self hlen, hq, runStatus, hc,
                JobOutcome.raises, he, hs, hof, hk]
            · next hk =>
              rw [Bool.not_eq_true] at hk
              simp [List.set_set, List.getElem?_set_self hlen, hq, runStatus, hc,
                JobOutcome.raises, he, hs, hof, hk]
          · next hof =>
            rw [Bool.not_eq_true] at hof
            simp [List.set_set, List.getElem?_set_self hlen, hq, runStatus, hc,
              JobOutcome.raises, he, hs, hof]

theorem stepJob_trace_spec (cfg : RunCfg) (oc : JobOutcome) (i : Nat) (st : RunSt) :
    ∃ tl, (stepJob cfg oc i st).trace = st.trace ++ tl ∧
      attempts tl = (if notCompleteAt st.queue i then [i] else []) ∧
      ∀ e ∈ tl, e.idx = i := by
  simp only [stepJob]
  split
  · next hq => exact ⟨[], by simp, by simp [notCompleteAt, hq, attempts], by simp⟩
  · next item hq =>
    split
    · next hc => exact ⟨[], by simp, by simp [notCompleteAt, hq, hc, attempts], by simp⟩
    · next hc =>
      have hnc : notCompleteAt st.queue i = true := by
        simp [notCompleteAt, hq, hc]
      split
      · exact ⟨[Ev.statusSet i Status.Processing, Ev.statusSet i Status.Error],
          by simp, by simp [hnc, attempts, attemptIdx],
          by intro e he; fin_cases he <;> rfl⟩
      · split
        · exact ⟨[Ev.statusSet i Status.Processing, Ev.extracted i,
              Ev.statusSet i Status.Error],
            by simp, by simp [hnc, attempts, attemptIdx],
            by intro e he; fin_cases he <;> rfl⟩
        · split
          · split
            · exact ⟨[Ev.statusSet i Status.Processing, Ev.extracted i,
                  Ev.synthesized i, Ev.encoded i, Ev.statusSet i Status.Complete],
                by simp, by simp [hnc, attempts, attemptIdx],
                by intro e he; fin_cases he <;> rfl⟩
            · exact ⟨[Ev.statusSet i Status.Processing, Ev.extracted i,
                  Ev.synthesized i, Ev.statusSet i Status.Error],
                by simp, by simp [hnc, attempts, attemptIdx],
                by intro e he; fin_cases he <;> rfl⟩
          · exact ⟨[Ev.statusSet i Status.Processing, Ev.extracted i,
                Ev.synthesized i, Ev.renamed i, Ev.statusSet i Status.Complete],
              by simp, by simp [hnc, attempts, attemptIdx],
              by intro e he; fin_cases he <;> rfl⟩

theorem runFrom_alwaysRun_cons (cfg : RunCfg) (oc : Nat → JobOutcome) (i : Nat)
    (rest : List Nat) (st : RunSt) :
    runFrom cfg (alwaysRun oc) (i :: rest) st
      = runFrom cfg (alwaysRun oc) rest (stepJob cfg (oc i) i st) := by
  simp [runFrom, alwaysRun]

theorem runFrom_alwaysRun_append (cfg : RunCfg) (oc : Nat → JobOutcome)
    (l1 l2 : List Nat) : ∀ st,
    runFrom cfg (alwaysRun oc) (l1 ++ l2) st
      = runFrom cfg (alwaysRun oc) l2 (runFrom cfg (alwaysRun oc) l1 st) := by
  induction l1 with
  | nil => intro st; rfl
  | cons i rest ih =>
    intro st
    rw [List.cons_append, runFrom_alwaysRun_cons, runFrom_alwaysRun_cons, ih]

theorem runFrom_queue_getElem?_not_mem (cfg : RunCfg) (env : RunEnv) (l : List Nat) :
    ∀ st {j : Nat}, j ∉ l → (runFrom cfg env l st).queue[j]? = st.queue[j]? := by
  induction l with
  | nil => intro st j _; rfl
  | cons i rest ih =>
    intro st j hj
    simp only [runFrom]
    split
    · rfl
    · rw [ih _ (fun h => hj (List.mem_cons_of_mem _ h))]
      exact stepJob_queue_getElem?_ne cfg (env.outcome i) i st
        (fun h => hj (h ▸ List.mem_cons_self _ _))

theorem runFrom_trace_sub (cfg : RunCfg) (env : RunEnv) (l : List Nat) :
    ∀ st {e : Ev}, e ∈ st.trace → e ∈ (runFrom cfg env l st).trace := by
  induction l with
  | nil => intro st e he; exact he
  | cons i rest ih =>
    intro st e he
    simp only [runFrom]
    split
    · exact he
    · apply ih
      obtain ⟨tl, htl, -, -⟩ := stepJob_trace_spec cfg (env.outcome i) i st
      rw [htl]
      exact List.mem_append_left _ he

theorem runFrom_trace_mem (cfg : RunCfg) (env : RunEnv) (l : List Nat) :
    ∀ st {e : Ev}, e ∈ (runFrom cfg env l st).trace →
      e ∈ st.trace ∨ (e.idx ∈ l ∧ env.runningAtTop e.idx = true) := by
  induction l with
  | nil => intro st e he; exact .inl he
  | cons i rest ih =>
    intro st e he
    simp only [runFrom] at he
    split at he
    · exact .inl he
    · next hrun =>
      rw [Bool.not_eq_false] at hrun
      rcases ih _ he with h | ⟨h1, h2⟩
      · obtain ⟨tl, htl, -, hidx⟩ := stepJob_trace_spec cfg (env.outcome i) i st
        rw [htl] at h
        rcases List.mem_append.mp h with h | h
        · exact .inl h
        · exact .inr ⟨by rw [hidx e h]; exact List.mem_cons_self _ _,
            by rw [hidx e h]; exact hrun⟩
      · exact .inr ⟨List.mem_cons_of_mem _ h1, h2⟩

theorem stepJob_complete (cfg : RunCfg) (oc : JobOutcome) (i : Nat) (st : RunSt)
    {item : Job} (hq : st.queue[i]? = some item)
    (hc : item.status = Status.Complete) : stepJob cfg oc i st = st := by
  simp [stepJob, hq, hc]

theorem runFrom_complete (cfg : RunCfg) (env : RunEnv) (l : List Nat) :
    ∀ st {i : Nat} {item : Job}, st.queue[i]? = some item →
      item.status = Status.Complete →
      (runFrom cfg env l st).queue[i]? = some item ∧
      ∀ e ∈ (runFrom cfg env l st).trace, e ∈ st.trace ∨ e.idx ≠ i := by
  induction l with
  | nil => intro st i item hq _; exact ⟨hq, fun _ he => .inl he⟩
  | cons k rest ih =>
    intro st i item hq hc
    simp only [runFrom]
    split
    · exact ⟨hq, fun _ he => .inl he⟩
    · by_cases hk : k = i
      · subst hk
        rw [stepJob_complete cfg (env.outcome k) k st hq hc]
        exact ih st hq hc
      · have hq' : (stepJob cfg (env.outcome k) k st).queue[i]? = some item := by
          rw [stepJob_queue_getElem?_ne cfg (env.outcome k) k st (fun h => hk h.symm)]
          exact hq
        obtain ⟨h1, h2⟩ := ih _ hq' hc
        refine ⟨h1, fun e he => ?_⟩
        rcases h2 e he with h | h
        · obtain ⟨tl, htl, -, hidx⟩ := stepJob_trace_spec cfg (env.outcome k) k st
          rw [htl] at h
          rcases List.mem_append.mp h with h | h
          · exact .inl h
          · exact .inr (by rw [hidx e h]; exact hk)
        · exact .inr h

theorem stepJob_queue_pathSub (cfg : RunCfg) (oc : JobOutcome) (i : Nat) (st : RunSt) :
    ∀ k ∈ (stepJob cfg oc i st).queue,
      ∃ k0 ∈ st.queue, k.path = k0.path ∧ k.filename = k0.filename := by
  simp only [stepJob]
  split
  · exact fun k hk => ⟨k, hk, rfl, rfl⟩
  · next item hq =>
    have hmem : item ∈ st.queue := List.getElem?_mem hq
    split
    · exact fun k hk => ⟨k, hk, rfl, rfl⟩
    · split <;> [skip; split <;> [skip; split <;> [split; skip]]] <;>
      · intro k hk
        rcases List.mem_or_eq_of_mem_set hk with hk' | rfl
        · rcases List.mem_or_eq_of_mem_set hk' with hk'' | rfl
          · exact ⟨k, hk'', rfl, rfl⟩
          · exact ⟨item, hmem, rfl, rfl⟩
        · exact ⟨item, hmem, rfl, rfl⟩

theorem stepJob_lastTemp (cfg : RunCfg) (oc : JobOutcome) (i : Nat) (st : RunSt) :
    ∀ t, (stepJob cfg oc i st).lastTemp = some t →
      st.lastTemp = some t ∨ ∃ k0 ∈ st.queue, t = tempPath cfg.dest k0 := by
  simp only [stepJob]
  split
  · exact fun _ ht => .inl ht
  · next item hq =>
    have hmem : item ∈ st.queue := List.getElem?_mem hq
    split
    · exact fun _ ht => .inl ht
    · split
      · exact fun _ ht => .inl ht
      · split <;> [skip; split <;> [split; skip]] <;>
        · intro t ht
          exact .inr ⟨item, hmem, (Option.some.inj ht).symm⟩

theorem stepJob_fs_not_mem (cfg : RunCfg) (oc : JobOutcome) (i : Nat) (st : RunSt)
    {p : String} (hp : p ∉ st.fs)
    (hfin : ∀ k ∈ st.queue, finalPath cfg.dest k ≠ p) :
    p ∉ (stepJob cfg oc i st).fs := by
  simp only [stepJob]
  split
  · exact hp
  · next item hq =>
    have hfin' : finalPath cfg.dest item ≠ p := hfin item (List.getElem?_mem hq)
    split
    · exact hp
    · split
      · -- extraction raised: at most a stale temp file is removed
        cases ht : st.lastTemp with
        | none => exact hp
        | some t =>
          intro hmem
          exact hp (mem_removePath.mp hmem).1
      · split
        · -- synthesis raised: temp possibly written, then removed
          intro hmem
          rcases mem_removePath.mp hmem with ⟨h1, hne⟩
          have h2 : p ∈ insertPath (tempPath cfg.dest item) st.fs := by
            split at h1
            · exact h1
            · exact mem_insertPath.mpr (.inr h1)
          rcases mem_insertPath.mp h2 with h | h
          · exact hne h
          · exact hp h
        · split
          · split
            · -- encode succeeded: final written, temp removed
              intro hmem
              rcases mem_removePath.mp hmem with ⟨h1, hne⟩
              rcases mem_insertPath.mp h1 with h | h
              · exact hfin' h.symm
              · rcases mem_insertPath.mp h with h' | h'
                · exact hne h'
                · exact hp h'
            · -- encode raised: partial final possibly left, temp removed
              intro hmem
              rcases mem_removePath.mp hmem with ⟨h1, hne⟩
              have h2 : p ∈ insertPath (finalPath cfg.dest item)
                  (insertPath (tempPath cfg.dest item) st.fs) := by
                split at h1
                · exact h1
                · exact mem_insertPath.mpr (.inr h1)
              rcases mem_insertPath.mp h2 with h | h
              · exact hfin' h.symm
              · rcases mem_insertPath.mp h with h' | h'
                · exact hne h'
                · exact hp h'
          · -- rename fallback: temp renamed to final
            intro hmem
            rcases mem_insertPath.mp hmem with h | h
            · exact hfin' h.symm
            · rcases mem_removePath.mp h with ⟨h1, hne⟩
              rcases mem_insertPath.mp h1 with h' | h'
              · exact hne h'
              · exact hp h'

theorem stepJob_fs_preserved (cfg : RunCfg) (oc : JobOutcome) (i : Nat) (st : RunSt)
    {p : String} (hp : p ∈ st.fs)
    (htmp : ∀ k ∈ st.queue, tempPath cfg.dest k ≠ p)
    (hlast : ∀ t, st.lastTemp = some t → t ≠ p) :
    p ∈ (stepJob cfg oc i st).fs := by
  simp only [stepJob]
  split
  · exact hp
  · next item hq =>
    have htmp' : tempPath cfg.dest item ≠ p := htmp item (List.getElem?_mem hq)
    split
    · exact hp
    · split
      · cases ht : st.lastTemp with
        | none => exact hp
        | some t => exact mem_removePath.mpr ⟨hp, fun h => hlast t ht h.symm⟩
      · split
        · refine mem_removePath.mpr ⟨?_, fun h => htmp' h.symm⟩
          split
          · exact mem_insertPath.mpr (.inr hp)
          · exact hp
        · split
          · split
            · exact mem_removePath.mpr ⟨mem_insertPath.mpr (.inr
                (mem_insertPath.mpr (.inr hp))), fun h => htmp' h.symm⟩
            · refine mem_removePath.mpr ⟨?_, fun h => htmp' h.symm⟩
              split
              · exact mem_insertPath.mpr (.inr (mem_insertPath.mpr (.inr hp)))
              · exact mem_insertPath.mpr (.inr hp)
          · exact mem_insertPath.mpr (.inr (mem_removePath.mpr
              ⟨mem_insertPath.mpr (.inr hp), fun h => htmp' h.symm⟩))

theorem runFrom_pathSub (cfg : RunCfg) (env : RunEnv) (l : List Nat) :
    ∀ st {q0 : List Job}, PathSub q0 st.queue →
      PathSub q0 (runFrom cfg env l st).queue := by
  induction l with
  | nil => intro st q0 h; exact h
  | cons i rest ih =>
    intro st q0 hsub
    simp only [runFrom]
    split
    · exact hsub
    · apply ih
      intro k hk
      obtain ⟨k1, hk1, h1, h2⟩ := stepJob_queue_pathSub cfg (env.outcome i) i st k hk
      obtain ⟨k0, hk0, h3, h4⟩ := hsub k1 hk1
      exact ⟨k0, hk0, h1.trans h3, h2.trans h4⟩

theorem runFrom_fs_not_mem (cfg : RunCfg) (env : RunEnv) (l : List Nat) :
    ∀ st {p : String} {q0 : List Job}, PathSub q0 st.queue → p ∉ st.fs →
      (∀ k0 ∈ q0, finalPath cfg.dest k0 ≠ p) →
      p ∉ (runFrom cfg env l st).fs := by
  induction l with
  | nil => intro st p q0 _ hp _; exact hp
  | cons i rest ih =>
    intro st p q0 hsub hp hfin
    simp only [runFrom]
    split
    · exact hp
    · refine ih _ ?_ ?_ hfin
      · intro k hk
        obtain ⟨k1, hk1, h1, h2⟩ := stepJob_queue_pathSub cfg (env.outcome i) i st k hk
        obtain ⟨k0, hk0, h3, h4⟩ := hsub k1 hk1
        exact ⟨k0, hk0, h1.trans h3, h2.trans h4⟩
      · refine stepJob_fs_not_mem cfg (env.outcome i) i st hp ?_
        intro k hk
        obtain ⟨k0, hk0, h1, h2⟩ := hsub k hk
        rw [finalPath_congr h1 h2]
        exact hfin k0 hk0

theorem runFrom_fs_preserved (cfg : RunCfg) (env : RunEnv) (l : List Nat) :
    ∀ st {p : String} {q0 : List Job}, PathSub q0 st.queue →
      LastTempInv cfg.dest q0 st → p ∈ st.fs →
      (∀ k0 ∈ q0, tempPath cfg.dest k0 ≠ p) →
      p ∈ (runFrom cfg env l st).fs := by
  induction l with
  | nil => intro st p q0 _ _ hp _; exact hp
  | cons i rest ih =>
    intro st p q0 hsub hinv hp htmp
    simp only [runFrom]
    split
    · exact hp
    · have hsub' : PathSub q0 (stepJob cfg (env.outcome i) i st).queue := by
        intro k hk
        obtain ⟨k1, hk1, h1, h2⟩ := stepJob_queue_pathSub cfg (env.outcome i) i st k hk
        obtain ⟨k0, hk0, h3, h4⟩ := hsub k1 hk1
        exact ⟨k0, hk0, h1.trans h3, h2.trans h4⟩
      refine ih _ hsub' ?_ ?_ htmp
      · intro t ht
        rcases stepJob_lastTemp cfg (env.outcome i) i st t ht with h | ⟨k, hk, rfl⟩
        · exact hinv t h
        · obtain ⟨k0, hk0, h1, h2⟩ := hsub k hk
          exact ⟨k0, hk0, tempPath_congr h1 h2⟩
      · refine stepJob_fs_preserved cfg (env.outcome i) i st hp ?_ ?_
        · intro k hk
          obtain ⟨k0, hk0, h1, h2⟩ := hsub k hk
          rw [tempPath_congr h1 h2]
          exact htmp k0 hk0
        · intro t ht
          obtain ⟨k0, hk0, rfl⟩ := hinv t ht
          exact htmp k0 hk0

theorem runFrom_attempts (cfg : RunCfg) (oc : Nat → JobOutcome) (l : List Nat) :
    ∀ st, l.Nodup →
      attempts (runFrom cfg (alwaysRun oc) l st).trace
        = attempts st.trace ++ l.filter (notCompleteAt st.queue) := by
  induction l with
  | nil => intro st _; simp [runFrom]
  | cons i rest ih =>
    intro st hnd
    rw [runFrom_alwaysRun_cons]
    obtain ⟨tl, htl, hat, -⟩ := stepJob_trace_spec cfg (oc i) i st
    have hrest : rest.filter (notCompleteAt (stepJob cfg (oc i) i st).queue)
        = rest.filter (notCompleteAt st.queue) := by
      refine List.filter_congr ?_
      intro j hj
      have hji : j ≠ i := by
        rintro rfl
        exact (List.nodup_cons.mp hnd).1 hj
      unfold notCompleteAt
      rw [stepJob_queue_getElem?_ne cfg (oc i) i st hji]
    rw [ih _ (List.nodup_cons.mp hnd).2, htl, attempts_append, hat, hrest,
      List.filter_cons]
    rcases h : notCompleteAt st.queue i with _ | _ <;> simp [List.append_assoc]

theorem runFrom_lastTempInv (cfg : RunCfg) (env : RunEnv) (l : List Nat) :
    ∀ st {q0 : List Job}, PathSub q0 st.queue → LastTempInv cfg.dest q0 st →
      LastTempInv cfg.dest q0 (runFrom cfg env l st) := by
  induction l with
  | nil => intro st q0 _ hinv; exact hinv
  | cons i rest ih =>
    intro st q0 hsub hinv
    simp only [runFrom]
    split
    · exact hinv
    · have hsub' : PathSub q0 (stepJob cfg (env.outcome i) i st).queue := by
        intro k hk
        obtain ⟨k1, hk1, h1, h2⟩ := stepJob_queue_pathSub cfg (env.outcome i) i st k hk
        obtain ⟨k0, hk0, h3, h4⟩ := hsub k1 hk1
        exact ⟨k0, hk0, h1.trans h3, h2.trans h4⟩
      refine ih _ hsub' ?_
      intro t ht
      rcases stepJob_lastTemp cfg (env.outcome i) i st t ht with h | ⟨k, hk, rfl⟩
      · exact hinv t h
      · obtain ⟨k0, hk0, h1, h2⟩ := hsub k hk
        exact ⟨k0, hk0, tempPath_congr h1 h2⟩

theorem processQueue_queue_getElem? (cfg : RunCfg) (oc : Nat → JobOutcome)
    (q : List Job) (fs0 : List String) {j : Nat} (hj : j < q.length) :
    (processQueue cfg (alwaysRun oc) q fs0).queue[j]?
      = (q[j]?).map (runStatus cfg (oc j)) := by
  obtain ⟨A, hA, hb⟩ := revRange_split hj
  unfold processQueue
  rw [hA, runFrom_alwaysRun_append, runFrom_alwaysRun_cons,
    runFrom_queue_getElem?_not_mem _ _ _ _ (by simp [mem_revRange]),
    stepJob_queue_getElem?_self,
    runFrom_queue_getElem?_not_mem _ _ _ _
      (fun hmem => absurd (hb j hmem) (lt_irrefl j))]

theorem statusSet_mem_of_attempts {tr : List Ev} {j : Nat} (h : j ∈ attempts tr) :
    Ev.statusSet j Status.Processing ∈ tr := by
  obtain ⟨e, he, hee⟩ := List.mem_filterMap.mp h
  cases e with
  | statusSet i s =>
    cases s with
    | Processing =>
      obtain rfl : i = j := Option.some.inj hee
      exact he
    | Pending => exact Option.noConfusion hee
    | Complete => exact Option.noConfusion hee
    | Error => exact Option.noConfusion hee
  | extracted i => exact Option.noConfusion hee
  | synthesized i => exact Option.noConfusion hee
  | encoded i => exact Option.noConfusion hee
  | renamed i => exact Option.noConfusion hee

theorem processQueue_attempted (cfg : RunCfg) (oc : Nat → JobOutcome)
    (q : List Job) (fs0 : List String) {j : Nat} (hj : j < q.length)
    (hnc : notCompleteAt q j = true) :
    Ev.statusSet j Status.Processing ∈ (processQueue cfg (alwaysRun oc) q fs0).trace := by
  apply statusSet_mem_of_attempts
  unfold processQueue
  rw [runFrom_attempts cfg oc _ _ (revRange_nodup _)]
  simp only [attempts, List.filterMap_nil, List.nil_append]
  exact List.mem_filter.mpr ⟨mem_revRange.mpr hj, hnc⟩

theorem stepJob_rename (cfg : RunCfg) (oc : JobOutcome) (i : Nat) (st : RunSt)
    {item : Job} (hq : st.queue[i]? = some item) (hc : item.status ≠ Status.Complete)
    (hex : oc.extractOk = true) (hsy : oc.synthOk = true)
    (hoff : (cfg.optimize && cfg.ffmpeg) = false) :
    (stepJob cfg oc i st).fs
      = insertPath (finalPath cfg.dest item)
          (removePath (tempPath cfg.dest item)
            (insertPath (tempPath cfg.dest item) st.fs)) ∧
    Ev.renamed i ∈ (stepJob cfg oc i st).trace := by
  simp only [stepJob, hq]
  rw [if_neg hc, if_neg (by simp [hex]), if_neg (by simp [hsy]), if_neg (by simp [hoff])]
  exact ⟨rfl, by simp⟩

/-! ## Claim theorems -/

/-- C1: when a conversion run starts and is never stopped or paused-stopped,
the queue runner attempts jobs in reverse queue order — the trace of
`Processing` marks equals `range(len-1, -1, -1)` filtered to the indices whose
job was not already `Complete`, so the job at index `n-1` comes first, the job
at index `0` last, and every non-`Complete` job is attempted exactly once. -/
theorem c1_reverse_order (cfg : RunCfg) (oc : Nat → JobOutcome) (q : List Job)
    (fs0 : List String) :
    attempts (processQueue cfg (alwaysRun oc) q fs0).trace
      = (revRange q.length).filter (notCompleteAt q) := by
  unfold processQueue
  rw [runFrom_attempts cfg oc _ _ (revRange_nodup _)]
  simp [attempts]

/-- C2 (counterexample): the claim that a Stop invoked mid-run — including
while the run is paused, when no job is in flight — allows no further status
transition is false: stopping during the pause wait before a pending job still
lets that job be fully processed, because the `break` in the pause loop leaves
only the inner `while`. -/
theorem c2_counterexample : ¬ ClaimC2 := by
  intro h
  have h2 := (h ⟨true, false, "/out"⟩
      ⟨fun _ => true, fun j => decide (j = 0), fun _ => ⟨true, true, false, true, false⟩⟩
      [⟨Status.Pending, "/docs/a.pdf", "a.pdf"⟩] [] 0
      (by
        intro a b hab hor
        rcases hor with h' | h'
        · exact Bool.noConfusion h'
        · simp only [decide_eq_true_eq] at h'
          omega)
      (by decide)).2 (by decide) rfl
  have hmem : Ev.statusSet 0 Status.Processing ∈
      (processQueue ⟨true, false, "/out"⟩
        ⟨fun _ => true, fun j => decide (j = 0), fun _ => ⟨true, true, false, true, false⟩⟩
        [⟨Status.Pending, "/docs/a.pdf", "a.pdf"⟩] []).trace := by decide
  have h3 := h2 _ hmem
  simp [Ev.idx] at h3

/-- C2 (amended): after Stop is observed at loop iteration `i` — at the
job-boundary check or during the pause wait — no job at a later loop position
(an index below `i`) undergoes any status transition; when Stop is observed at
the job-boundary check even the job at index `i` is untouched; the job at the
current index is still fully processed only in the pause-wait case.  The
control state afterwards is Idle: `stop_conversion` on a running state clears
both flags. -/
theorem c2_amended_stop (cfg : RunCfg) (env : RunEnv) (q : List Job)
    (fs0 : List String) (i : Nat) (hmono : env.StopMonotone)
    (hstop : env.runningAtTop i = false ∨ env.stopDuringPause i = true) :
    (∀ e ∈ (processQueue cfg env q fs0).trace, i ≤ e.idx) ∧
    (env.runningAtTop i = false → ∀ e ∈ (processQueue cfg env q fs0).trace, i < e.idx) ∧
    (∀ b, stop_conversion ⟨true, b⟩ = ⟨false, false⟩) := by
  have key : ∀ e ∈ (processQueue cfg env q fs0).trace, env.runningAtTop e.idx = true := by
    intro e he
    rcases runFrom_trace_mem cfg env _ _ he with h | ⟨-, h2⟩
    · simp at h
    · exact h2
  have hle : ∀ e ∈ (processQueue cfg env q fs0).trace, i ≤ e.idx := by
    intro e he
    by_contra hlt
    push_neg at hlt
    have hfalse := hmono i e.idx hlt hstop
    rw [key e he] at hfalse
    exact Bool.noConfusion hfalse
  refine ⟨hle, ?_, fun b => rfl⟩
  intro hrun e he
  rcases Nat.eq_or_lt_of_le (hle e he) with heq | hlt
  · rw [heq] at hrun
    rw [key e he] at hrun
    exact Bool.noConfusion hrun
  · exact hlt

/-- C2 (witness): the amended theorem applied to a concrete two-job run whose
Stop arrives during the pause wait of the first iteration (index 1): every
event of the run stays at index 1, and stopping a running paused state yields
Idle. -/
theorem c2_amended_stop_witness :
    ((processQueue ⟨true, false, "/out"⟩
        ⟨fun j => decide (1 ≤ j), fun j => decide (j = 1), fun _ => ⟨true, true, false, true, false⟩⟩
        [⟨Status.Pending, "/docs/a.pdf", "a.pdf"⟩, ⟨Status.Pending, "/docs/b.pdf", "b.pdf"⟩]
        []).trace).all (fun e => decide (1 ≤ e.idx)) = true ∧
    stop_conversion ⟨true, true⟩ = ⟨false, false⟩ := by
  have h := c2_amended_stop ⟨true, false, "/out"⟩
      ⟨fun j => decide (1 ≤ j), fun j => decide (j = 1), fun _ => ⟨true, true, false, true, false⟩⟩
      [⟨Status.Pending, "/docs/a.pdf", "a.pdf"⟩, ⟨Status.Pending, "/docs/b.pdf", "b.pdf"⟩]
      [] 1
      (by
        intro a b hab hor
        have ha : a ≤ 1 := by
          rcases hor with h' | h'
          · have h2 := of_decide_eq_false h'
            omega
          · have h2 := of_decide_eq_true h'
            omega
        simp only [decide_eq_false_iff_not]
        omega)
      (.inr (by decide))
  exact ⟨List.all_eq_true.mpr (fun e he => decide_eq_true (h.1 e he)), h.2.2 true⟩

/-- C3: when processing of the job at index `i` raises (in extraction,
synthesis, or the enabled encode step), that job ends the run in status
`Error`; no temporary output file for it is left on disk (it never appears,
given it was not there initially and no job's final name collides with it);
every other non-`Complete` job is still attempted, and every job that does not
raise — including those processed earlier, at higher indices — ends the run
`Complete`. -/
theorem c3_per_job_error (cfg : RunCfg) (oc : Nat → JobOutcome) (q : List Job)
    (fs0 : List String) (i : Nat) (job : Job)
    (hget : q[i]? = some job)
    (hnc : job.status ≠ Status.Complete)
    (hraise : (oc i).raises cfg.optimize cfg.ffmpeg = true)
    (htemp0 : tempPath cfg.dest job ∉ fs0)
    (hnocol : ∀ k ∈ q, finalPath cfg.dest k ≠ tempPath cfg.dest job) :
    (processQueue cfg (alwaysRun oc) q fs0).queue[i]?
        = some { job with status := Status.Error } ∧
    tempPath cfg.dest job ∉ (processQueue cfg (alwaysRun oc) q fs0).fs ∧
    (∀ j, j < q.length → notCompleteAt q j = true →
      Ev.statusSet j Status.Processing ∈ (processQueue cfg (alwaysRun oc) q fs0).trace) ∧
    (∀ j k, q[j]? = some k →
      (k.status = Status.Complete ∨ (oc j).raises cfg.optimize cfg.ffmpeg = false) →
      (processQueue cfg (alwaysRun oc) q fs0).queue[j]?
        = some { k with status := Status.Complete }) := by
  have hi : i < q.length := (List.getElem?_eq_some.mp hget).1
  refine ⟨?_, ?_, ?_, ?_⟩
  · rw [processQueue_queue_getElem? cfg oc q fs0 hi, hget]
    simp [runStatus, hnc, hraise]
  · exact runFrom_fs_not_mem cfg (alwaysRun oc) (revRange q.length)
      ⟨q, fs0, none, []⟩ (fun k hk => ⟨k, hk, rfl, rfl⟩) htemp0 hnocol
  · intro j hj hjnc
    exact processQueue_attempted cfg oc q fs0 hj hjnc
  · intro j k hq hor
    have hjlen : j < q.length := (List.getElem?_eq_some.mp hq).1
    rw [processQueue_queue_getElem? cfg oc q fs0 hjlen, hq]
    by_cases hc : k.status = Status.Complete
    · simp only [Option.map_some', runStatus, if_pos hc]
      cases k
      simp_all
    · rcases hor with hc' | hraisef
      · exact absurd hc' hc
      · simp [runStatus, hc, hraisef]

/-- C3 (witness): a concrete two-job run where synthesis raises for the job at
index 0 while job 1 succeeds: job 0 ends `Error`, its temp file is gone, job 1
was attempted and ends `Complete`. -/
theorem c3_per_job_error_witness :
    (processQueue demoCfg (alwaysRun (fun j => if j = 0 then demoOutcomeSynthFail
        else demoOutcomeOk)) [demoJobA, demoJobB] []).queue[0]?
      = some { demoJobA with status := Status.Error } ∧
    tempPath "/out" demoJobA ∉ (processQueue demoCfg (alwaysRun
        (fun j => if j = 0 then demoOutcomeSynthFail else demoOutcomeOk))
        [demoJobA, demoJobB] []).fs ∧
    Ev.statusSet 1 Status.Processing ∈ (processQueue demoCfg (alwaysRun
        (fun j => if j = 0 then demoOutcomeSynthFail else demoOutcomeOk))
        [demoJobA, demoJobB] []).trace ∧
    (processQueue demoCfg (alwaysRun
        (fun j => if j = 0 then demoOutcomeSynthFail else demoOutcomeOk))
        [demoJobA, demoJobB] []).queue[1]?
      = some { demoJobB with status := Status.Complete } := by
  have h := c3_per_job_error demoCfg
      (fun j => if j = 0 then demoOutcomeSynthFail else demoOutcomeOk)
      [demoJobA, demoJobB] [] 0 demoJobA
      (by decide) (by decide) (by decide) (by decide) (by decide)
  exact ⟨h.1, h.2.1, h.2.2.1 1 (by decide) (by decide),
    h.2.2.2 1 demoJobB (by decide) (.inr (by decide))⟩

/-- C4: a job whose status is `Complete` at the start of a run is never
touched again: across any sequence of later runs — stopped, paused or not,
with any external outcomes — its queue entry is unchanged and no event
(no status write, extraction, synthesis, encode or rename) ever concerns its
index. -/
theorem c4_complete_never_reprocessed (cfg : RunCfg) (envs : List RunEnv)
    (q : List Job) (fs0 : List String) (i : Nat) (job : Job)
    (hget : q[i]? = some job) (hc : job.status = Status.Complete) :
    (runMany cfg envs q fs0).1[i]? = some job ∧
    ∀ e ∈ (runMany cfg envs q fs0).2.2, e.idx ≠ i := by
  induction envs generalizing q fs0 with
  | nil => exact ⟨hget, by simp [runMany]⟩
  | cons env rest ih =>
    obtain ⟨h1, h2⟩ := runFrom_complete cfg env (revRange q.length)
      ⟨q, fs0, none, []⟩ hget hc
    obtain ⟨h3, h4⟩ := ih _ _ h1
    refine ⟨h3, ?_⟩
    intro e he
    simp only [runMany] at he
    rcases List.mem_append.mp he with h | h
    · rcases h2 e h with h' | h'
      · simp at h'
      · exact h'
    · exact h4 e h

/-- C4 (witness): a concrete pair of runs over a queue whose index-1 job is
already `Complete`: its entry survives both runs unchanged and no event of
either run mentions index 1. -/
theorem c4_complete_never_reprocessed_witness :
    (runMany demoCfg [alwaysRun (fun _ => demoOutcomeOk),
        alwaysRun (fun _ => demoOutcomeSynthFail)] [demoJobA, demoJobDone] []).1[1]?
      = some demoJobDone ∧
    ((runMany demoCfg [alwaysRun (fun _ => demoOutcomeOk),
        alwaysRun (fun _ => demoOutcomeSynthFail)] [demoJobA, demoJobDone] []).2.2).all
      (fun e => decide (e.idx ≠ 1)) = true := by
  have h := c4_complete_never_reprocessed demoCfg
      [alwaysRun (fun _ => demoOutcomeOk), alwaysRun (fun _ => demoOutcomeSynthFail)]
      [demoJobA, demoJobDone] [] 1 demoJobDone (by decide) (by decide)
  exact ⟨h.1, List.all_eq_true.mpr (fun e he => decide_eq_true (h.2 e he))⟩

/-- C5: settings round-trip for both applications.  Saving and reloading the
first app's settings restores every field exactly (all keys are written, so no
default is consulted).  For the second app the same holds for every valid
settings value — one whose fields the running application can actually hold
(voice and filter from their lists, speed within the slider range, format one
of the radio values with `mp3` implying ffmpeg, an output path that passes the
loader's existence check and is `pathlib`-normal, stripped text). -/
theorem c5_settings_roundtrip :
    (∀ (st0 s : App1Settings),
      app1_load_settings st0 (.obj (app1_save_settings s)) = .ok s) ∧
    (∀ (hasFfmpeg : Bool) (pathOk : String → Bool) (pathStr : String → String)
        (st0 s : App2Settings), ValidApp2 hasFfmpeg pathOk pathStr s →
      app2_load_settings hasFfmpeg pathOk pathStr st0 (.obj (app2_save_settings s))
        = (s, false)) := by
  constructor
  · intro st0 s
    rfl
  · intro F pOk pStr st0 s hval
    obtain ⟨hv, hs1, hs2, hf, hmp3, hpo, hps, hstrip, hl⟩ := hval
    have hfmt : (if s.output_format = "mp3" ∧ F = false then "wav" else s.output_format)
        = s.output_format := by
      rcases hf with h | h
      · rw [if_neg]
        rintro ⟨h2, -⟩
        rw [h] at h2
        exact absurd h2 (by decide)
      · rw [if_neg]
        rintro ⟨-, h2⟩
        rw [hmp3 h] at h2
        exact Bool.noConfusion h2
    simp only [app2_load_settings, app2_save_settings, Option.getD,
      if_pos hv, if_pos (And.intro hs1 hs2), if_pos hf, hfmt, if_pos hpo, hps,
      hstrip, if_pos hl]

/-- C5 (witness): round-trips of concrete settings values of both apps. -/
theorem c5_settings_roundtrip_witness :
    app1_load_settings (app1Defaults "/home/user/Downloads")
        (.obj (app1_save_settings
          ⟨[demoJobA], "/dest", "Speaker 1 (p225)", "", "VCTK (Multi-Voice)", false⟩))
      = .ok ⟨[demoJobA], "/dest", "Speaker 1 (p225)", "", "VCTK (Multi-Voice)", false⟩ ∧
    app2_load_settings true (fun _ => true) (fun p => p)
        (app2Defaults "/home/user/Downloads")
        (.obj (app2_save_settings
          ⟨"af_heart", 3/2, "mp3", "/outdir", "hello world", true, "DEBUG"⟩))
      = (⟨"af_heart", 3/2, "mp3", "/outdir", "hello world", true, "DEBUG"⟩, false) := by
  refine ⟨c5_settings_roundtrip.1 _ _, c5_settings_roundtrip.2 true _ _ _ _ ?_⟩
  exact ⟨by decide, by norm_num, by norm_num, .inr rfl, fun _ => rfl, rfl, rfl,
    by decide, by decide⟩

/-- C6: starting from a queue with pairwise-distinct source paths, any
sequence of `find_pdfs` enqueue steps keeps all source paths distinct, and an
enqueue whose source path is already present leaves the queue unchanged. -/
theorem c6_no_duplicate_paths (q0 js : List Job)
    (h : (q0.map Job.path).Nodup) :
    ((js.foldl queue_add q0).map Job.path).Nodup ∧
    ∀ (q : List Job) (j : Job), (∃ k ∈ q, k.path = j.path) → queue_add q j = q := by
  constructor
  · induction js generalizing q0 with
    | nil => exact h
    | cons j rest ih =>
      simp only [List.foldl_cons]
      apply ih
      unfold queue_add
      split
      · exact h
      · next hany =>
        rw [List.map_append, List.nodup_append]
        refine ⟨h, by simp, ?_⟩
        intro x hx hx2
        simp only [List.map_cons, List.map_nil, List.mem_singleton] at hx2
        subst hx2
        obtain ⟨k, hk, hkp⟩ := List.mem_map.mp hx
        rw [List.any_eq_true] at hany
        exact hany ⟨k, hk, by simp [hkp]⟩
  · rintro q j ⟨k, hk, hkp⟩
    unfold queue_add
    rw [if_pos (List.any_eq_true.mpr ⟨k, hk, by simp [hkp]⟩)]

/-- C6 (witness): adding two distinct jobs and then a duplicate of the first
path keeps paths distinct, and a duplicate add is the identity. -/
theorem c6_no_duplicate_paths_witness :
    (([demoJobA, demoJobB, demoJobA2].foldl queue_add []).map Job.path).Nodup ∧
    queue_add [demoJobA, demoJobB] demoJobA2 = [demoJobA, demoJobB] := by
  have h := c6_no_duplicate_paths [] [demoJobA, demoJobB, demoJobA2] (by decide)
  exact ⟨h.1, h.2 _ _ ⟨demoJobA, by decide, by decide⟩⟩

/-- C7: `move_item` with a target index `index + delta` outside
`[0, len - 1]` leaves the queue unchanged; with an in-bounds target it keeps
the length, places the selected item at the target index, and removing the
moved item from the result gives exactly the original queue without it (all
other items keep their relative order). -/
theorem c7_move_item (q : List Job) (index : Nat) (direction : Int) :
    (((index : Int) + direction < 0 ∨ (q.length : Int) ≤ (index : Int) + direction) →
      move_item q index direction = q) ∧
    (∀ item, q[index]? = some item →
      0 ≤ (index : Int) + direction → (index : Int) + direction < (q.length : Int) →
      (move_item q index direction).length = q.length ∧
      (move_item q index direction)[((index : Int) + direction).toNat]? = some item ∧
      (move_item q index direction).eraseIdx ((index : Int) + direction).toNat
        = q.eraseIdx index) := by
  constructor
  · intro hout
    unfold move_item
    rw [if_neg]
    rintro ⟨h1, h2⟩
    rcases hout with h | h <;> omega
  · intro item hitem h0 h1
    have hidx : index < q.length := (List.getElem?_eq_some.mp hitem).1
    unfold move_item
    rw [if_pos (And.intro h0 h1)]
    simp only [hitem]
    have htlt : ((index : Int) + direction).toNat < q.length := by omega
    have hle : ((index : Int) + direction).toNat ≤ (q.eraseIdx index).length := by
      rw [List.length_eraseIdx, if_pos hidx]
      omega
    refine ⟨?_, ?_, List.eraseIdx_insertIdx _ _⟩
    · rw [List.length_insertIdx _ _ hle, List.length_eraseIdx, if_pos hidx]
      omega
    · have hlt2 : ((index : Int) + direction).toNat
          < ((q.eraseIdx index).insertIdx ((index : Int) + direction).toNat item).length := by
        rw [List.length_insertIdx _ _ hle, List.length_eraseIdx, if_pos hidx]
        omega
      rw [List.getElem?_eq_getElem hlt2,
        List.getElem_insertIdx_self (q.eraseIdx index) item _ hle]

/-- C7 (witness): on a concrete two-job queue, moving index 0 up (target -1)
is a no-op, and moving index 0 down one place keeps the length, lands the item
at index 1, and leaves the other item in place. -/
theorem c7_move_item_witness :
    move_item [demoJobA, demoJobB] 0 (-1) = [demoJobA, demoJobB] ∧
    (move_item [demoJobA, demoJobB] 0 1).length = 2 ∧
    (move_item [demoJobA, demoJobB] 0 1)[1]? = some demoJobA ∧
    (move_item [demoJobA, demoJobB] 0 1).eraseIdx 1
      = [demoJobA, demoJobB].eraseIdx 0 := by
  have h1 := (c7_move_item [demoJobA, demoJobB] 0 (-1)).1 (.inl (by norm_num))
  have h2 := (c7_move_item [demoJobA, demoJobB] 0 1).2 demoJobA
    (by decide) (by norm_num) (by norm_num)
  exact ⟨h1, h2.1, h2.2.1, h2.2.2⟩

/-- C8 (counterexample): the claim that settings loading never raises for a
missing or corrupt file is false for the first application: a file that parses
to a non-object JSON value (for example `[]`) makes `settings.get` raise
`AttributeError`, which `load_settings` does not catch. -/
theorem c8_counterexample : ¬ ClaimC8 := by
  intro h
  obtain ⟨r, hr⟩ := h (app1Defaults "/home/user/Downloads") .nonObject (.inr (.inr rfl))
  simp [app1_load_settings] at hr

/-- C8 (amended): a missing settings file leaves the first app's startup
defaults untouched, and an unparseable one is caught, resetting only the
queue; a file parsing to a non-object value raises in the first app (see the
counterexample).  The second app's loader never raises: a missing file keeps
the defaults silently and an unparseable or malformed one keeps them with a
logged warning. -/
theorem c8_amended_load_errors :
    (∀ st : App1Settings, app1_load_settings st .missing = .ok st) ∧
    (∀ st : App1Settings,
      app1_load_settings st .notJson = .ok { st with pdf_queue := [] }) ∧
    (∀ (F : Bool) (pOk : String → Bool) (pStr : String → String) (st : App2Settings),
      app2_load_settings F pOk pStr st .missing = (st, false)) ∧
    (∀ (F : Bool) (pOk : String → Bool) (pStr : String → String) (st : App2Settings),
      app2_load_settings F pOk pStr st .notJson = (st, true)) ∧
    (∀ (F : Bool) (pOk : String → Bool) (pStr : String → String) (st : App2Settings),
      app2_load_settings F pOk pStr st .nonObject = (st, true)) :=
  ⟨fun _ => rfl, fun _ => rfl, fun _ _ _ _ => rfl, fun _ _ _ _ => rfl,
    fun _ _ _ _ => rfl⟩

/-- C9: when MP3 optimization is requested (`optimize_mp3` set) but ffmpeg is
unavailable, a job whose extraction and synthesis succeed still produces its
output: the run takes the rename fallback for that job, the job ends
`Complete`, and the file at the final output path exists when the run finishes
(no other job's temp name colliding with it). -/
theorem c9_rename_fallback (oc : Nat → JobOutcome) (q : List Job) (fs0 : List String)
    (dest : String) (i : Nat) (job : Job)
    (hget : q[i]? = some job)
    (hnc : job.status ≠ Status.Complete)
    (hex : (oc i).extractOk = true)
    (hsy : (oc i).synthOk = true)
    (hnocol : ∀ k ∈ q, tempPath dest k ≠ finalPath dest job) :
    Ev.renamed i ∈ (processQueue ⟨true, false, dest⟩ (alwaysRun oc) q fs0).trace ∧
    (processQueue ⟨true, false, dest⟩ (alwaysRun oc) q fs0).queue[i]?
      = some { job with status := Status.Complete } ∧
    finalPath dest job ∈ (processQueue ⟨true, false, dest⟩ (alwaysRun oc) q fs0).fs := by
  have hi : i < q.length := (List.getElem?_eq_some.mp hget).1
  obtain ⟨A, hA, hb⟩ := revRange_split hi
  have hiA : i ∉ A := fun hmem => absurd (hb i hmem) (lt_irrefl i)
  have hrw : processQueue ⟨true, false, dest⟩ (alwaysRun oc) q fs0
      = runFrom ⟨true, false, dest⟩ (alwaysRun oc) (revRange i)
          (stepJob ⟨true, false, dest⟩ (oc i) i
            (runFrom ⟨true, false, dest⟩ (alwaysRun oc) A ⟨q, fs0, none, []⟩)) := by
    unfold processQueue
    rw [hA, runFrom_alwaysRun_append, runFrom_alwaysRun_cons]
  have hq1 : (runFrom ⟨true, false, dest⟩ (alwaysRun oc) A ⟨q, fs0, none, []⟩).queue[i]?
      = some job := by
    rw [runFrom_queue_getElem?_not_mem _ _ _ _ hiA]
    exact hget
  have hsubA : PathSub q (runFrom ⟨true, false, dest⟩ (alwaysRun oc) A
      ⟨q, fs0, none, []⟩).queue :=
    runFrom_pathSub _ _ _ _ (fun k hk => ⟨k, hk, rfl, rfl⟩)
  have hinvA : LastTempInv dest q (runFrom ⟨true, false, dest⟩ (alwaysRun oc) A
      ⟨q, fs0, none, []⟩) :=
    runFrom_lastTempInv _ _ _ _ (fun k hk => ⟨k, hk, rfl, rfl⟩)
      (fun t ht => Option.noConfusion ht)
  obtain ⟨hfs, hren⟩ := stepJob_rename ⟨true, false, dest⟩ (oc i) i _ hq1 hnc hex hsy rfl
  have hsubS : PathSub q (stepJob ⟨true, false, dest⟩ (oc i) i
      (runFrom ⟨true, false, dest⟩ (alwaysRun oc) A ⟨q, fs0, none, []⟩)).queue := by
    intro k hk
    obtain ⟨k1, hk1, hp1, hf1⟩ := stepJob_queue_pathSub _ _ _ _ k hk
    obtain ⟨k0, hk0, hp2, hf2⟩ := hsubA k1 hk1
    exact ⟨k0, hk0, hp1.trans hp2, hf1.trans hf2⟩
  have hinvS : LastTempInv dest q (stepJob ⟨true, false, dest⟩ (oc i) i
      (runFrom ⟨true, false, dest⟩ (alwaysRun oc) A ⟨q, fs0, none, []⟩)) := by
    intro t ht
    rcases stepJob_lastTemp _ _ _ _ t ht with h | ⟨k, hk, rfl⟩
    · exact hinvA t h
    · obtain ⟨k0, hk0, hp, hf⟩ := hsubA k hk
      exact ⟨k0, hk0, tempPath_congr hp hf⟩
  refine ⟨?_, ?_, ?_⟩
  · rw [hrw]
    exact runFrom_trace_sub _ _ _ _ hren
  · rw [processQueue_queue_getElem? _ oc q fs0 hi, hget]
    simp [runStatus, hnc, JobOutcome.raises, hex, hsy]
  · rw [hrw]
    exact runFrom_fs_preserved _ _ _ _ hsubS hinvS
      (by rw [hfs]; exact mem_insertPath.mpr (.inl rfl)) hnocol

/-- C9 (witness): a concrete one-job run with optimization requested and no
ffmpeg: the rename branch runs, the job completes and the final output file
exists. -/
theorem c9_rename_fallback_witness :
    Ev.renamed 0 ∈ (processQueue ⟨true, false, "/out"⟩
        (alwaysRun (fun _ => demoOutcomeOk)) [demoJobA] []).trace ∧
    (processQueue ⟨true, false, "/out"⟩
        (alwaysRun (fun _ => demoOutcomeOk)) [demoJobA] []).queue[0]?
      = some { demoJobA with status := Status.Complete } ∧
    finalPath "/out" demoJobA ∈ (processQueue ⟨true, false, "/out"⟩
        (alwaysRun (fun _ => demoOutcomeOk)) [demoJobA] []).fs :=
  c9_rename_fallback (fun _ => demoOutcomeOk) [demoJobA] [] "/out" 0 demoJobA
    (by decide) (by decide) (by decide) (by decide) (by decide)

/-- C10: in the second application without ffmpeg, the output format is always
`"wav"` — startup forces it, a persisted `"mp3"` is rewritten on load, the
disabled MP3 radio cannot change it, and no other operation touches it — so
the generation step never takes the mp3-encode branch. -/
theorem c10_mp3_only_with_ffmpeg (pathOk : String → Bool) (pathStr : String → String)
    (downloads : String) (file : FileState App2File) (ops : List App2Op) :
    (ops.foldl (app2_step false pathOk pathStr)
        (app2_init false pathOk pathStr downloads file)).output_format = "wav" ∧
    mp3EncodeAttempted false
      (ops.foldl (app2_step false pathOk pathStr)
        (app2_init false pathOk pathStr downloads file)) = false := by
  have hload : ∀ (st : App2Settings) (fl : FileState App2File),
      st.output_format = "wav" →
      (app2_load_settings false pathOk pathStr st fl).1.output_format = "wav" := by
    intro st fl h
    cases fl with
    | missing => exact h
    | notJson => exact h
    | nonObject => exact h
    | obj f =>
      simp only [app2_load_settings]
      cases f.output_format with
      | none => exact h
      | some fo =>
        dsimp only
        split
        · next h1 =>
          split
          · rfl
          · next h2 =>
            rcases h1 with hf | hf
            · exact hf
            · exact absurd ⟨hf, by trivial⟩ h2
        · exact h
  have hstep : ∀ (st : App2Settings) (op : App2Op), st.output_format = "wav" →
      (app2_step false pathOk pathStr st op).output_format = "wav" := by
    intro st op h
    cases op with
    | selectFormat f =>
      simp only [app2_step]
      split
      · next hcond =>
        rcases hcond.1 with hf | hf
        · simp [hf]
        · exact absurd ⟨hf, by trivial⟩ hcond.2
      · exact h
    | loadSettings fl => exact hload st fl h
    | selectVoice v =>
      simp only [app2_step]
      split <;> simp [h]
    | setSpeed v => exact h
    | setText t => exact h
    | setPath p => exact h
  have hinv : ∀ (l : List App2Op) (st : App2Settings), st.output_format = "wav" →
      (l.foldl (app2_step false pathOk pathStr) st).output_format = "wav" := by
    intro l
    induction l with
    | nil => intro st h; exact h
    | cons op rest ih =>
      intro st h
      exact ih _ (hstep st op h)
  have hini : (app2_init false pathOk pathStr downloads file).output_format = "wav" := by
    simp [app2_init]
  have hw := hinv ops _ hini
  refine ⟨hw, ?_⟩
  simp [mp3EncodeAttempted]

end KokoroSpec
